import Mathlib

/-!
Verification development for the torchqf factor model
(src/torchqf/model/factor_model.py).

The Python class FactorModel wraps a handful of torch tensor operations:
an assertion stage in fit, a pseudo-inverse regression, a matrix
multiplication and a broadcasting subtraction in forward.  We embed the
rank-2 tensors as exact rational matrices (Mat), the general tensors fed
to fit's assertion stage as shape-carrying Tensor values, and the fallible
torch operations as Except computations over an explicit error taxonomy.
torch.linalg.pinv is an external capability of the linear-algebra layer
(the spec treats it as such), so the model is parametric in a function
pinv : Mat → Mat; theorems that depend on its behaviour take the relevant
Moore-Penrose conditions as hypotheses, and witnesses instantiate it with
a concrete function that satisfies them at the witness input.
-/

namespace Torchqf

/-- Claim-relevant failure modes of the Python code and the torch layer:
ShapeMismatch is the assertion "numbers of time steps do not match",
UnsupportedRank the assertion "not supported", IndexOutOfRange the
IndexError of size(-1) on a 0-dim tensor, AttributeMissing the
AttributeError raised when self.beta is read before any fit,
DimensionMismatch the torch.mm shape check, and BroadcastMismatch the
failure of broadcasting in elementwise subtraction. -/
inductive TorchError where
  | ShapeMismatch
  | UnsupportedRank
  | IndexOutOfRange
  | AttributeMissing
  | DimensionMismatch
  | BroadcastMismatch
deriving DecidableEq

/-- A dense 2-D matrix over exact rationals: the embedding of a rank-2
torch tensor.  Entries outside the rows × cols bounds are irrelevant. -/
structure Mat where
  rows : Nat
  cols : Nat
  entry : Nat → Nat → ℚ

/-- Matrix transpose: Tensor.t() and Tensor.transpose(-2, -1) on a 2-D
tensor. -/
def Mat.t (a : Mat) : Mat :=
  ⟨a.cols, a.rows, fun i j => a.entry j i⟩

/-- The raw matrix product (no shape checking; torch.mm checks shapes
before delegating to this). -/
def Mat.mul (a b : Mat) : Mat :=
  ⟨a.rows, b.cols, fun i j => ∑ k ∈ Finset.range a.cols, a.entry i k * b.entry k j⟩

/-- The all-zero matrix of a given shape. -/
def Mat.zero (r c : Nat) : Mat :=
  ⟨r, c, fun _ _ => 0⟩

/-- Observational equality of matrices: same shape and equal entries on
all in-bounds positions. -/
def MatEq (a b : Mat) : Prop :=
  a.rows = b.rows ∧ a.cols = b.cols ∧
    ∀ i < a.rows, ∀ j < a.cols, a.entry i j = b.entry i j

instance (a b : Mat) : Decidable (MatEq a b) := by
  unfold MatEq
  exact inferInstance

namespace torch

/-- torch.mm: strict 2-D matrix multiplication.  It does not broadcast
and requires the inner dimensions to agree, otherwise it raises a
dimension-mismatch RuntimeError. -/
def mm (a b : Mat) : Except TorchError Mat :=
  if a.cols = b.rows then .ok (Mat.mul a b) else .error .DimensionMismatch

/-- Broadcasting of one dimension pair, as torch does it for elementwise
binary operations: equal sizes pass through, a size of one stretches to
the other size, anything else is incompatible. -/
def broadcastDim (a b : Nat) : Option Nat :=
  if a = b then some a else if a = 1 then some b else if b = 1 then some a else none

/-- Index map realizing a broadcast dimension: a size-one dimension is
read at index 0, any other dimension at the requested index. -/
def bIdx (n i : Nat) : Nat :=
  if n = 1 then 0 else i

/-- Elementwise subtraction of 2-D tensors with torch broadcasting
semantics: equal shapes subtract entrywise, otherwise each dimension pair
must broadcast, and incompatible shapes raise a RuntimeError. -/
def sub (a b : Mat) : Except TorchError Mat :=
  if a.rows = b.rows ∧ a.cols = b.cols then
    .ok ⟨a.rows, a.cols, fun i j => a.entry i j - b.entry i j⟩
  else
    match broadcastDim a.rows b.rows, broadcastDim a.cols b.cols with
    | some r, some c =>
        .ok ⟨r, c, fun i j =>
          a.entry (bIdx a.rows i) (bIdx a.cols j) - b.entry (bIdx b.rows i) (bIdx b.cols j)⟩
    | _, _ => .error .BroadcastMismatch

end torch

/-- A torch tensor of arbitrary rank, as far as the claims need it: its
shape list and its entries indexed by multi-indices.  Only rank-2 tensors
ever reach the numeric parts of the code. -/
structure Tensor where
  shape : List Nat
  entry : List Nat → ℚ

/-- Tensor.ndim. -/
def Tensor.ndim (t : Tensor) : Nat :=
  t.shape.length

/-- The last element of a shape list; Tensor.size(-1) raises IndexError
on a tensor with no dimensions. -/
def lastSize : List Nat → Except TorchError Nat
  | [] => .error .IndexOutOfRange
  | [n] => .ok n
  | _ :: n :: rest => lastSize (n :: rest)

/-- Tensor.size(-1). -/
def Tensor.sizeLast (t : Tensor) : Except TorchError Nat :=
  lastSize t.shape

/-- The matrix view of a rank-2 tensor: shape [r, c] with entry (i, j)
read at multi-index [i, j]. -/
def Tensor.toMat (t : Tensor) : Mat :=
  ⟨t.shape.headD 0, (t.shape.drop 1).headD 0, fun i j => t.entry [i, j]⟩

/-- Build a rank-2 tensor from a shape and an entry function; used to
write concrete inputs. -/
def matTensor (r c : Nat) (f : Nat → Nat → ℚ) : Tensor :=
  ⟨[r, c], fun idx => f (idx.headD 0) ((idx.drop 1).headD 0)⟩

/-- The FactorModel instance state: beta is absent until the first
successful fit stores it (in Python the attribute simply does not exist
before that, and reading it raises AttributeError). -/
structure FactorModel where
  beta : Option Mat

/-- FactorModel(): __init__ stores nothing, so beta is absent. -/
def FactorModel.init : FactorModel :=
  ⟨none⟩

/-- FactorModel.fit, translated line by line:
assert input.size(-1) == factors.size(-1) ("numbers of time steps do not
match"), assert input.ndim == 2 and factors.ndim == 2 ("not supported"),
X = factors.t(), y = input.transpose(-2, -1),
beta = torch.mm(torch.linalg.pinv(X), y), self.beta = beta, return self.
Errors abort before the assignment, so on error no state is produced;
on success the returned model is the mutated instance itself. -/
def FactorModel.fit (pinv : Mat → Mat) (m : FactorModel) (input factors : Tensor) :
    Except TorchError FactorModel :=
  match input.sizeLast, factors.sizeLast with
  | .error e, _ => .error e
  | .ok _, .error e => .error e
  | .ok tI, .ok tF =>
      if tI ≠ tF then .error .ShapeMismatch
      else if input.ndim ≠ 2 then .error .UnsupportedRank
      else if factors.ndim ≠ 2 then .error .UnsupportedRank
      else
        match torch.mm (pinv factors.toMat.t) input.toMat.t with
        | .error e => .error e
        | .ok beta => .ok { beta := some beta }

/-- FactorModel.forward, translated line by line:
factor_return = torch.mm(self.beta.t(), factors); return input -
factor_return.  Reading self.beta before any fit raises AttributeError;
the subtraction broadcasts.  The function reads the state and mutates
nothing, which the embedding reflects by returning only the residual. -/
def FactorModel.forward (m : FactorModel) (input factors : Mat) :
    Except TorchError Mat :=
  match m.beta with
  | none => .error .AttributeMissing
  | some beta =>
      match torch.mm beta.t factors with
      | .error e => .error e
      | .ok factor_return => torch.sub input factor_return

/-- FactorModel.fit_forward: self.fit(input, factors)(input, factors).
The pair returned carries the post-fit state together with the residual,
since in Python the state mutation and the returned tensor both survive
the call. -/
def FactorModel.fit_forward (pinv : Mat → Mat) (m : FactorModel) (input factors : Tensor) :
    Except TorchError (FactorModel × Mat) :=
  match FactorModel.fit pinv m input factors with
  | .error e => .error e
  | .ok m1 =>
      match FactorModel.forward m1 input.toMat factors.toMat with
      | .error e => .error e
      | .ok res => .ok (m1, res)

/-- A concrete stand-in for the pseudo-inverse capability, used only to
build witnesses: on the witness inputs (orthonormal rows) the transpose
is the exact Moore-Penrose pseudo-inverse. -/
def pinvT : Mat → Mat :=
  Mat.t

/-- Extract the value of a successful computation, with a default for the
error case; used to name concrete results inside witness statements. -/
def okOr {α : Type} (e : Except TorchError α) (d : α) : α :=
  match e with
  | .ok a => a
  | .error _ => d

/-- Success test for a torch computation. -/
def isOkB {α : Type} : Except TorchError α → Bool
  | .ok _ => true
  | .error _ => false

@[simp]
theorem Mat.t_rows (a : Mat) : a.t.rows = a.cols := rfl

@[simp]
theorem Mat.t_cols (a : Mat) : a.t.cols = a.rows := rfl

@[simp]
theorem Mat.t_entry (a : Mat) (i j : Nat) : a.t.entry i j = a.entry j i := rfl

@[simp]
theorem Mat.mul_rows (a b : Mat) : (Mat.mul a b).rows = a.rows := rfl

@[simp]
theorem Mat.mul_cols (a b : Mat) : (Mat.mul a b).cols = b.cols := rfl

theorem Mat.mul_entry (a b : Mat) (i j : Nat) :
    (Mat.mul a b).entry i j = ∑ k ∈ Finset.range a.cols, a.entry i k * b.entry k j := rfl

@[simp]
theorem Tensor.toMat_rows (t : Tensor) : t.toMat.rows = t.shape.headD 0 := rfl

@[simp]
theorem Tensor.toMat_cols (t : Tensor) : t.toMat.cols = (t.shape.drop 1).headD 0 := rfl

/-- Whatever fit returns on success is the instance whose beta is exactly
the least-squares product computed on line 82 of the source. -/
theorem fit_ok_beta (pinv : Mat → Mat) (m : FactorModel) (input factors : Tensor)
    (m1 : FactorModel)
    (h : FactorModel.fit pinv m input factors = .ok m1) :
    m1 = ⟨some (Mat.mul (pinv factors.toMat.t) input.toMat.t)⟩ := by
  unfold FactorModel.fit at h
  rcases hI : input.sizeLast with eI | tI <;> rw [hI] at h
  · exact Except.noConfusion h
  rcases hF : factors.sizeLast with eF | tF <;> rw [hF] at h
  · exact Except.noConfusion h
  simp only at h
  split at h
  · exact Except.noConfusion h
  split at h
  · exact Except.noConfusion h
  split at h
  · exact Except.noConfusion h
  rcases hmm : torch.mm (pinv factors.toMat.t) input.toMat.t with e | beta <;> rw [hmm] at h
  · exact Except.noConfusion h
  · unfold torch.mm at hmm
    split at hmm
    · simp only at h hmm
      obtain rfl : Mat.mul (pinv factors.toMat.t) input.toMat.t = beta :=
        Except.ok.inj hmm
      exact (Except.ok.inj h).symm
    · exact Except.noConfusion hmm

/-- Behaviour of forward when all shapes line up: the mm check and the
equal-shape branch of the subtraction both pass, and the residual is the
entrywise difference. -/
theorem forward_ok_spec (m : FactorModel) (B input factors : Mat)
    (hB : m.beta = some B)
    (h1 : factors.rows = B.rows)
    (h2 : input.rows = B.cols)
    (h3 : input.cols = factors.cols) :
    FactorModel.forward m input factors
      = .ok ⟨input.rows, input.cols,
          fun i j => input.entry i j - (Mat.mul B.t factors).entry i j⟩ := by
  unfold FactorModel.forward
  rw [hB]
  have hmm : torch.mm B.t factors = .ok (Mat.mul B.t factors) := by
    unfold torch.mm
    rw [if_pos]
    exact h1.symm
  simp only [hmm]
  show torch.sub input (Mat.mul B.t factors) = _
  unfold torch.sub
  rw [if_pos]
  exact ⟨h2, h3⟩

/-- A 1-by-1 asset-return tensor with the single observation 2; witness
input. -/
def wIn : Tensor := matTensor 1 1 (fun _ _ => 2)

/-- A 1-by-1 factor-return tensor with the single observation 1; witness
input.  Its transpose is an orthonormal column, so the transpose is its
exact Moore-Penrose pseudo-inverse. -/
def wFac : Tensor := matTensor 1 1 (fun _ _ => 1)

/-- Claim C1: for exactly 2-D inputs asset_returns of shape (A, T) and
factor_returns of shape (F, T) with equal time-step counts, fit computes
and stores beta = pinv(factor_returns.T) @ asset_returns.T, of shape
(F, A).  The pseudo-inverse is the external capability; the two pinv
hypotheses record the shape contract of torch.linalg.pinv (the
pseudo-inverse of a (T, F) matrix has shape (F, T)). -/
theorem fit_beta_spec (pinv : Mat → Mat) (m : FactorModel) (input factors : Tensor)
    (A T F : Nat)
    (hI : input.shape = [A, T]) (hF : factors.shape = [F, T])
    (hPr : (pinv factors.toMat.t).rows = F)
    (hPc : (pinv factors.toMat.t).cols = T) :
    FactorModel.fit pinv m input factors
      = .ok ⟨some (Mat.mul (pinv factors.toMat.t) input.toMat.t)⟩
    ∧ (Mat.mul (pinv factors.toMat.t) input.toMat.t).rows = F
    ∧ (Mat.mul (pinv factors.toMat.t) input.toMat.t).cols = A := by
  refine ⟨?_, hPr, ?_⟩
  · have hsI : input.sizeLast = .ok T := by
      rw [Tensor.sizeLast, hI]
      rfl
    have hsF : factors.sizeLast = .ok T := by
      rw [Tensor.sizeLast, hF]
      rfl
    have hyr : input.toMat.t.rows = T := by
      rw [Mat.t_rows, Tensor.toMat_cols, hI]
      rfl
    have hmm : torch.mm (pinv factors.toMat.t) input.toMat.t
        = .ok (Mat.mul (pinv factors.toMat.t) input.toMat.t) := by
      unfold torch.mm
      rw [if_pos]
      rw [hPc, hyr]
    unfold FactorModel.fit
    rw [hsI, hsF]
    simp only [hmm, Tensor.ndim, hI, hF]
    simp
  · rw [Mat.mul_cols, Mat.t_cols, Tensor.toMat_rows, hI]
    rfl

/-- Witness for C1 at the 1-asset, 1-factor, 1-step inputs wIn and wFac,
with the transpose as the concrete pseudo-inverse capability. -/
theorem fit_beta_spec_witness :
    wIn.shape = [1, 1] ∧ wFac.shape = [1, 1]
    ∧ (pinvT wFac.toMat.t).rows = 1 ∧ (pinvT wFac.toMat.t).cols = 1
    ∧ (FactorModel.fit pinvT FactorModel.init wIn wFac
        = .ok ⟨some (Mat.mul (pinvT wFac.toMat.t) wIn.toMat.t)⟩
      ∧ (Mat.mul (pinvT wFac.toMat.t) wIn.toMat.t).rows = 1
      ∧ (Mat.mul (pinvT wFac.toMat.t) wIn.toMat.t).cols = 1) :=
  ⟨rfl, rfl, rfl, rfl,
    fit_beta_spec pinvT FactorModel.init wIn wFac 1 1 1 rfl rfl rfl rfl⟩

/-- Claim C2: on a fitted model whose stored beta has shape (F, A), with
inputs of shapes (A, T) and (F, T), forward returns the residual
asset_returns - beta.T @ factor_returns, a matrix of shape (A, T).  The
embedding returns only the residual: forward reads the state and mutates
neither the stored beta nor its inputs, which the type of
FactorModel.forward makes structural. -/
theorem forward_residual_spec (m : FactorModel) (B input factors : Mat) (A T F : Nat)
    (hB : m.beta = some B)
    (hBr : B.rows = F) (hBc : B.cols = A)
    (hIr : input.rows = A) (hIc : input.cols = T)
    (hFr : factors.rows = F) (hFc : factors.cols = T) :
    FactorModel.forward m input factors
      = .ok ⟨A, T, fun i j => input.entry i j
          - ∑ k ∈ Finset.range F, B.entry k i * factors.entry k j⟩ := by
  subst hBr
  subst hBc
  subst hIc
  rw [forward_ok_spec m B input factors hB (hFr) (hIr) (hFc.symm), hIr]
  rfl

/-- Witness for C2: a fitted 1-by-1 beta of value 3, asset returns
[[5]], factor returns [[2]]; the residual is 5 - 3 * 2 entrywise. -/
theorem forward_residual_spec_witness :
    (FactorModel.mk (some ⟨1, 1, fun _ _ => 3⟩)).beta = some ⟨1, 1, fun _ _ => 3⟩
    ∧ FactorModel.forward ⟨some ⟨1, 1, fun _ _ => 3⟩⟩ ⟨1, 1, fun _ _ => 5⟩ ⟨1, 1, fun _ _ => 2⟩
      = .ok ⟨1, 1, fun i j => Mat.entry ⟨1, 1, fun _ _ => 5⟩ i j
          - ∑ k ∈ Finset.range 1,
              Mat.entry ⟨1, 1, fun _ _ => 3⟩ k i * Mat.entry ⟨1, 1, fun _ _ => 2⟩ k j⟩ :=
  ⟨rfl,
    forward_residual_spec ⟨some ⟨1, 1, fun _ _ => 3⟩⟩ ⟨1, 1, fun _ _ => 3⟩
      ⟨1, 1, fun _ _ => 5⟩ ⟨1, 1, fun _ _ => 2⟩ 1 1 1 rfl rfl rfl rfl rfl rfl rfl⟩

/-- Claim C3: whenever the two inputs' last-dimension (time-step) counts
both exist and differ, fit fails with the ShapeMismatch assertion.  The
assertion precedes the assignment self.beta = beta, so no beta is stored:
in the embedding an error result carries no successor state. -/
theorem fit_time_mismatch (pinv : Mat → Mat) (m : FactorModel) (input factors : Tensor)
    (t1 t2 : Nat)
    (h1 : input.sizeLast = .ok t1) (h2 : factors.sizeLast = .ok t2)
    (hne : t1 ≠ t2) :
    FactorModel.fit pinv m input factors = .error .ShapeMismatch := by
  unfold FactorModel.fit
  rw [h1, h2]
  simp [hne]

/-- Witness for C3: shapes (1, 2) and (1, 3), time-step counts 2 and 3. -/
theorem fit_time_mismatch_witness :
    (matTensor 1 2 fun _ _ => 0).sizeLast = .ok 2
    ∧ (matTensor 1 3 fun _ _ => 0).sizeLast = .ok 3
    ∧ (2 : Nat) ≠ 3
    ∧ FactorModel.fit pinvT FactorModel.init
        (matTensor 1 2 fun _ _ => 0) (matTensor 1 3 fun _ _ => 0)
      = .error .ShapeMismatch :=
  ⟨rfl, rfl, by decide,
    fit_time_mismatch pinvT FactorModel.init
      (matTensor 1 2 fun _ _ => 0) (matTensor 1 3 fun _ _ => 0) 2 3 rfl rfl (by decide)⟩

/-- Counterexample to C4 as stated: a 3-D input (shape (2, 3, 4)) whose
last dimension differs from the factors' (shape (1, 5)).  The time-step
assertion on line 74 runs before the rank assertions on lines 75-76, so
the call fails with ShapeMismatch, not with UnsupportedRank as the claim
requires for every non-2-D input. -/
theorem fit_rank_claim_counterexample :
    (Tensor.mk [2, 3, 4] fun _ => 0).ndim = 3
    ∧ FactorModel.fit pinvT FactorModel.init
        (Tensor.mk [2, 3, 4] fun _ => 0) (Tensor.mk [1, 5] fun _ => 0)
      = .error .ShapeMismatch
    ∧ TorchError.ShapeMismatch ≠ TorchError.UnsupportedRank :=
  ⟨rfl, rfl, by decide⟩

/-- Claim C4, amended: when both inputs have at least one dimension and
their last-dimension sizes match (so that neither earlier check fires),
a call to fit in which either input has a number of dimensions other
than 2 fails with the UnsupportedRank assertion. -/
theorem fit_rank_error (pinv : Mat → Mat) (m : FactorModel) (input factors : Tensor)
    (t : Nat)
    (h1 : input.sizeLast = .ok t) (h2 : factors.sizeLast = .ok t)
    (hrank : input.ndim ≠ 2 ∨ factors.ndim ≠ 2) :
    FactorModel.fit pinv m input factors = .error .UnsupportedRank := by
  unfold FactorModel.fit
  rw [h1, h2]
  rcases hrank with h | h
  · simp [h]
  · rcases eq_or_ne input.ndim 2 with hi | hi
    · simp [hi, h]
    · simp [hi]

/-- Witness for the amended C4: a 3-D input of shape (1, 2, 3) against a
2-D factor matrix of shape (5, 3); the last dimensions agree, so the rank
assertion is the one that fires. -/
theorem fit_rank_error_witness :
    (Tensor.mk [1, 2, 3] fun _ => 0).sizeLast = .ok 3
    ∧ (Tensor.mk [5, 3] fun _ => 0).sizeLast = .ok 3
    ∧ (Tensor.mk [1, 2, 3] fun _ => 0).ndim ≠ 2
    ∧ FactorModel.fit pinvT FactorModel.init
        (Tensor.mk [1, 2, 3] fun _ => 0) (Tensor.mk [5, 3] fun _ => 0)
      = .error .UnsupportedRank :=
  ⟨rfl, rfl, by decide,
    fit_rank_error pinvT FactorModel.init
      (Tensor.mk [1, 2, 3] fun _ => 0) (Tensor.mk [5, 3] fun _ => 0) 3 rfl rfl
      (Or.inl (by decide))⟩

/-- Claim C5: fit_forward(X, F) succeeds with post-state m1 and residual
r exactly when fit(X, F) succeeds with post-state m1 and forward(X, F) on
that state returns r: the convenience method is literally the two-call
sequence on the same instance, leaving the instance in the same state. -/
theorem fit_forward_equiv (pinv : Mat → Mat) (m : FactorModel) (input factors : Tensor)
    (m1 : FactorModel) (r : Mat) :
    FactorModel.fit_forward pinv m input factors = .ok (m1, r)
      ↔ (FactorModel.fit pinv m input factors = .ok m1
          ∧ FactorModel.forward m1 input.toMat factors.toMat = .ok r) := by
  unfold FactorModel.fit_forward
  rcases hf : FactorModel.fit pinv m input factors with e | m2 <;> simp only
  · constructor
    · intro h
      exact Except.noConfusion h
    · rintro ⟨h1, _⟩
      exact Except.noConfusion h1
  · constructor
    · intro h
      rcases hfw : FactorModel.forward m2 input.toMat factors.toMat with e | r2 <;>
        rw [hfw] at h
      · exact Except.noConfusion h
      · obtain ⟨rfl, rfl⟩ : m2 = m1 ∧ r2 = r := by
          have h' := Except.ok.inj h
          exact ⟨congrArg Prod.fst h', congrArg Prod.snd h'⟩
        exact ⟨rfl, hfw⟩
    · rintro ⟨h1, h2⟩
      obtain rfl : m2 = m1 := Except.ok.inj h1
      rw [h2]

/-- Claim C6: every successful fit stores as beta exactly the freshly
computed product, independently of whatever beta the instance held
before (replacement, never a merge), and the value fit returns is the
post-fit instance itself: in the embedding the returned FactorModel is
the successor state on which forward operates. -/
theorem fit_overwrites_beta (pinv : Mat → Mat) (m : FactorModel) (input factors : Tensor)
    (m1 : FactorModel)
    (h : FactorModel.fit pinv m input factors = .ok m1) :
    m1 = ⟨some (Mat.mul (pinv factors.toMat.t) input.toMat.t)⟩ :=
  fit_ok_beta pinv m input factors m1 h

/-- Witness for C6: an instance previously fitted with an unrelated
3-by-7 beta; refitting on wIn and wFac replaces it with the freshly
computed 1-by-1 beta. -/
theorem fit_overwrites_beta_witness :
    FactorModel.fit pinvT ⟨some (Mat.zero 3 7)⟩ wIn wFac
      = .ok (okOr (FactorModel.fit pinvT ⟨some (Mat.zero 3 7)⟩ wIn wFac) FactorModel.init)
    ∧ okOr (FactorModel.fit pinvT ⟨some (Mat.zero 3 7)⟩ wIn wFac) FactorModel.init
      = ⟨some (Mat.mul (pinvT wFac.toMat.t) wIn.toMat.t)⟩ :=
  ⟨rfl,
    fit_overwrites_beta pinvT ⟨some (Mat.zero 3 7)⟩ wIn wFac
      (okOr (FactorModel.fit pinvT ⟨some (Mat.zero 3 7)⟩ wIn wFac) FactorModel.init) rfl⟩

/-- Counterexample to C7 as stated: on an instance with no stored beta,
forward fails with the missing-attribute error of reading self.beta (the
Python AttributeError), which is not the DimensionMismatch error of the
linear-algebra layer. -/
theorem forward_unfitted_counterexample :
    FactorModel.init.beta = none
    ∧ FactorModel.forward FactorModel.init ⟨1, 1, fun _ _ => 0⟩ ⟨1, 1, fun _ _ => 0⟩
      = .error .AttributeMissing
    ∧ TorchError.AttributeMissing ≠ TorchError.DimensionMismatch :=
  ⟨rfl, rfl, by decide⟩

/-- Claim C7, amended: when forward is called before any fit (no stored
beta), the failure that surfaces is the missing-attribute error raised
by reading self.beta, propagated as-is without being caught or
translated; it is not a DimensionMismatch of the linear-algebra layer,
which is never reached. -/
theorem forward_unfitted (m : FactorModel) (input factors : Mat)
    (h : m.beta = none) :
    FactorModel.forward m input factors = .error .AttributeMissing := by
  unfold FactorModel.forward
  rw [h]

/-- Witness for the amended C7 on a freshly constructed instance. -/
theorem forward_unfitted_witness :
    FactorModel.init.beta = none
    ∧ FactorModel.forward FactorModel.init ⟨2, 3, fun _ _ => 1⟩ ⟨4, 3, fun _ _ => 1⟩
      = .error .AttributeMissing :=
  ⟨rfl, forward_unfitted FactorModel.init ⟨2, 3, fun _ _ => 1⟩ ⟨4, 3, fun _ _ => 1⟩ rfl⟩

/-- Counterexample to C8 as stated: a fitted 1-by-1 beta, asset returns
of shape (1, 1) and factor returns of shape (1, 2).  The time-step
counts 1 and 2 differ, yet the call does not fail: torch.mm succeeds and
the subtraction broadcasts the size-one time dimension, so forward
returns a (1, 2) result. -/
theorem forward_broadcast_counterexample :
    (Mat.mk 1 1 fun _ _ => 5).cols = 1
    ∧ (Mat.mk 1 2 fun _ j => (j : ℚ) + 1).cols = 2
    ∧ isOkB (FactorModel.forward ⟨some ⟨1, 1, fun _ _ => 1⟩⟩
        ⟨1, 1, fun _ _ => 5⟩ ⟨1, 2, fun _ j => (j : ℚ) + 1⟩) = true :=
  ⟨rfl, rfl, rfl⟩

/-- Claim C8, amended: forward performs no shape-mismatch assertion of
its own; a factor input whose row count differs from the stored beta's
row count makes the call fail with the matrix-multiplication dimension
error.  A mismatched time-step count alone is not an assertion failure:
it reaches the broadcasting subtraction, where it either broadcasts (a
size-one dimension, in which case the call succeeds, see the
counterexample) or fails with the subtraction's broadcast error. -/
theorem forward_beta_mismatch (m : FactorModel) (B input factors : Mat)
    (hB : m.beta = some B) (h : factors.rows ≠ B.rows) :
    FactorModel.forward m input factors = .error .DimensionMismatch := by
  unfold FactorModel.forward
  rw [hB]
  have hmm : torch.mm B.t factors = .error .DimensionMismatch := by
    unfold torch.mm
    rw [if_neg]
    exact fun hc => h (Eq.symm hc)
  simp only [hmm]

/-- Witness for the amended C8: a stored 2-by-1 beta against a factor
matrix with a single row. -/
theorem forward_beta_mismatch_witness :
    (FactorModel.mk (some (Mat.zero 2 1))).beta = some (Mat.zero 2 1)
    ∧ (Mat.mk 1 4 fun _ _ => 1).rows ≠ (Mat.zero 2 1).rows
    ∧ FactorModel.forward ⟨some (Mat.zero 2 1)⟩ ⟨1, 4, fun _ _ => 1⟩ ⟨1, 4, fun _ _ => 1⟩
      = .error .DimensionMismatch :=
  ⟨rfl, by decide,
    forward_beta_mismatch ⟨some (Mat.zero 2 1)⟩ (Mat.zero 2 1)
      ⟨1, 4, fun _ _ => 1⟩ ⟨1, 4, fun _ _ => 1⟩ rfl (by decide)⟩

/-- Core of the least-squares orthogonality argument, phrased on raw
entry functions: f is the (F, T) factor matrix, P the (F, T)
pseudo-inverse of its transpose, inp the (A, T) asset matrix.  From the
two Moore-Penrose conditions used (X P X = X and the symmetry of X P,
for X the transposed factor matrix) the in-sample residual row i is
orthogonal to factor row j. -/
theorem ortho_core (T F : Nat) (f P inp : Nat → Nat → ℚ)
    (hsym : ∀ t < T, ∀ u < T,
      ∑ v ∈ Finset.range F, f v t * P v u = ∑ v ∈ Finset.range F, f v u * P v t)
    (hmp1 : ∀ u < T, ∀ j < F,
      ∑ t ∈ Finset.range T, (∑ v ∈ Finset.range F, f v u * P v t) * f j t = f j u)
    (i j : Nat) (hj : j < F) :
    ∑ t ∈ Finset.range T,
      (inp i t - ∑ k ∈ Finset.range F,
          (∑ u ∈ Finset.range T, P k u * inp i u) * f k t) * f j t = 0 := by
  have key : ∀ u ∈ Finset.range T,
      (∑ k ∈ Finset.range F, P k u * ∑ t ∈ Finset.range T, f k t * f j t) = f j u := by
    intro u hu
    have hu' : u < T := Finset.mem_range.mp hu
    calc ∑ k ∈ Finset.range F, P k u * ∑ t ∈ Finset.range T, f k t * f j t
        = ∑ k ∈ Finset.range F, ∑ t ∈ Finset.range T, P k u * (f k t * f j t) :=
          Finset.sum_congr rfl fun k _ => Finset.mul_sum _ _ _
      _ = ∑ t ∈ Finset.range T, ∑ k ∈ Finset.range F, P k u * (f k t * f j t) :=
          Finset.sum_comm
      _ = ∑ t ∈ Finset.range T, (∑ k ∈ Finset.range F, f k t * P k u) * f j t := by
          refine Finset.sum_congr rfl fun t _ => ?_
          rw [Finset.sum_mul]
          exact Finset.sum_congr rfl fun k _ => by ring
      _ = ∑ t ∈ Finset.range T, (∑ k ∈ Finset.range F, f k u * P k t) * f j t := by
          refine Finset.sum_congr rfl fun t ht => ?_
          rw [hsym t (Finset.mem_range.mp ht) u hu']
      _ = f j u := hmp1 u hu' j hj
  have big : ∑ t ∈ Finset.range T,
      (∑ k ∈ Finset.range F, (∑ u ∈ Finset.range T, P k u * inp i u) * f k t) * f j t
      = ∑ u ∈ Finset.range T, inp i u * f j u := by
    calc ∑ t ∈ Finset.range T,
        (∑ k ∈ Finset.range F, (∑ u ∈ Finset.range T, P k u * inp i u) * f k t) * f j t
        = ∑ t ∈ Finset.range T, ∑ k ∈ Finset.range F,
            ((∑ u ∈ Finset.range T, P k u * inp i u) * f k t) * f j t :=
          Finset.sum_congr rfl fun t _ => Finset.sum_mul _ _ _
      _ = ∑ k ∈ Finset.range F, ∑ t ∈ Finset.range T,
            ((∑ u ∈ Finset.range T, P k u * inp i u) * f k t) * f j t :=
          Finset.sum_comm
      _ = ∑ k ∈ Finset.range F,
            (∑ u ∈ Finset.range T, P k u * inp i u) * ∑ t ∈ Finset.range T, f k t * f j t := by
          refine Finset.sum_congr rfl fun k _ => ?_
          rw [Finset.mul_sum]
          exact Finset.sum_congr rfl fun t _ => by ring
      _ = ∑ k ∈ Finset.range F, ∑ u ∈ Finset.range T,
            (P k u * inp i u) * ∑ t ∈ Finset.range T, f k t * f j t :=
          Finset.sum_congr rfl fun k _ => Finset.sum_mul _ _ _
      _ = ∑ u ∈ Finset.range T, ∑ k ∈ Finset.range F,
            (P k u * inp i u) * ∑ t ∈ Finset.range T, f k t * f j t :=
          Finset.sum_comm
      _ = ∑ u ∈ Finset.range T,
            inp i u * ∑ k ∈ Finset.range F, P k u * ∑ t ∈ Finset.range T, f k t * f j t := by
          refine Finset.sum_congr rfl fun u _ => ?_
          rw [Finset.mul_sum]
          exact Finset.sum_congr rfl fun k _ => by ring
      _ = ∑ u ∈ Finset.range T, inp i u * f j u := by
          refine Finset.sum_congr rfl fun u hu => ?_
          rw [key u hu]
  calc ∑ t ∈ Finset.range T,
      (inp i t - ∑ k ∈ Finset.range F,
          (∑ u ∈ Finset.range T, P k u * inp i u) * f k t) * f j t
      = ∑ t ∈ Finset.range T, (inp i t * f j t
          - (∑ k ∈ Finset.range F,
              (∑ u ∈ Finset.range T, P k u * inp i u) * f k t) * f j t) :=
        Finset.sum_congr rfl fun t _ => sub_mul _ _ _
    _ = ∑ t ∈ Finset.range T, inp i t * f j t
        - ∑ t ∈ Finset.range T,
            (∑ k ∈ Finset.range F,
              (∑ u ∈ Finset.range T, P k u * inp i u) * f k t) * f j t :=
        Finset.sum_sub_distrib
    _ = 0 := by
        rw [big, sub_eq_zero]

@[simp]
theorem Mat.zero_entry (r c i j : Nat) : (Mat.zero r c).entry i j = 0 := rfl

/-- Claim C9: for factor returns of shape (F, T) and asset returns of
shape (A, T), the residual produced by fit followed by forward on the
same inputs satisfies residual @ factor_returns.T = 0.  The
pseudo-inverse capability enters through the two Moore-Penrose
conditions it guarantees for X = factor_returns.T (X pinv(X) X = X and
symmetry of X pinv(X)), together with its shape contract.  Over exact
arithmetic the orthogonality is exact, and no full-row-rank assumption
is needed: the claim's full-row-rank case is an instance. -/
theorem residual_orthogonal (pinv : Mat → Mat) (m m1 : FactorModel)
    (input factors : Tensor) (r : Mat) (A T F : Nat)
    (hI : input.shape = [A, T]) (hF : factors.shape = [F, T])
    (hPr : (pinv factors.toMat.t).rows = F)
    (hPc : (pinv factors.toMat.t).cols = T)
    (hmp1 : MatEq
      (Mat.mul (Mat.mul factors.toMat.t (pinv factors.toMat.t)) factors.toMat.t)
      factors.toMat.t)
    (hsym : MatEq (Mat.mul factors.toMat.t (pinv factors.toMat.t)).t
      (Mat.mul factors.toMat.t (pinv factors.toMat.t)))
    (hfit : FactorModel.fit pinv m input factors = .ok m1)
    (hfw : FactorModel.forward m1 input.toMat factors.toMat = .ok r) :
    MatEq (Mat.mul r factors.toMat.t) (Mat.zero A F) := by
  have hMfr : factors.toMat.rows = F := by
    rw [Tensor.toMat_rows, hF]
    rfl
  have hMfc : factors.toMat.cols = T := by
    rw [Tensor.toMat_cols, hF]
    rfl
  have hMir : input.toMat.rows = A := by
    rw [Tensor.toMat_rows, hI]
    rfl
  have hMic : input.toMat.cols = T := by
    rw [Tensor.toMat_cols, hI]
    rfl
  obtain rfl : m1 = ⟨some (Mat.mul (pinv factors.toMat.t) input.toMat.t)⟩ :=
    fit_ok_beta pinv m input factors m1 hfit
  have hspec := forward_ok_spec
    ⟨some (Mat.mul (pinv factors.toMat.t) input.toMat.t)⟩
    (Mat.mul (pinv factors.toMat.t) input.toMat.t)
    input.toMat factors.toMat rfl
    (by rw [Mat.mul_rows]; exact hMfr.trans hPr.symm)
    rfl
    (hMic.trans hMfc.symm)
  rw [hspec] at hfw
  obtain rfl := Except.ok.inj hfw
  have hsym' : ∀ t < T, ∀ u < T,
      ∑ v ∈ Finset.range F, factors.toMat.entry v t * (pinv factors.toMat.t).entry v u
      = ∑ v ∈ Finset.range F, factors.toMat.entry v u * (pinv factors.toMat.t).entry v t := by
    intro t ht u hu
    have h := hsym.2.2 u (by rw [Mat.t_rows, Mat.mul_cols, hPc]; exact hu)
      t (by rw [Mat.t_cols, Mat.mul_rows, Mat.t_rows, hMfc]; exact ht)
    simp only [Mat.t_entry, Mat.mul_entry, Mat.t_cols, hMfr] at h
    exact h
  have hmp1' : ∀ u < T, ∀ j < F,
      ∑ t ∈ Finset.range T,
        (∑ v ∈ Finset.range F, factors.toMat.entry v u * (pinv factors.toMat.t).entry v t)
          * factors.toMat.entry j t
      = factors.toMat.entry j u := by
    intro u hu j hj
    have h := hmp1.2.2 u (by rw [Mat.mul_rows, Mat.mul_rows, Mat.t_rows, hMfc]; exact hu)
      j (by rw [Mat.mul_cols, Mat.t_cols, hMfr]; exact hj)
    simp only [Mat.t_entry, Mat.mul_entry, Mat.t_cols, Mat.mul_cols, hMfr, hPc] at h
    exact h
  refine ⟨?_, ?_, ?_⟩
  · rw [Mat.mul_rows]
    exact hMir
  · rw [Mat.mul_cols, Mat.t_cols]
    exact hMfr
  · intro i hi j hj
    rw [Mat.mul_cols, Mat.t_cols, hMfr] at hj
    simp only [Mat.mul_entry, Mat.t_entry, Mat.t_cols, Mat.mul_cols, Mat.mul_rows,
      Mat.t_rows, Mat.zero_entry, hMic, hMfr, hMfc, hPr, hPc]
    exact ortho_core T F (fun v t => factors.toMat.entry v t)
      (fun k u => (pinv factors.toMat.t).entry k u)
      (fun i u => input.toMat.entry i u) hsym' hmp1' i j hj

/-- Witness for C9 at wIn and wFac with the transpose as the concrete
pseudo-inverse: the single factor row is orthonormal, so all four
hypotheses on the capability hold definitionally, and the in-sample
residual is orthogonal to the factor row. -/
theorem residual_orthogonal_witness :
    wIn.shape = [1, 1] ∧ wFac.shape = [1, 1]
    ∧ MatEq (Mat.mul (Mat.mul wFac.toMat.t (pinvT wFac.toMat.t)) wFac.toMat.t) wFac.toMat.t
    ∧ MatEq (Mat.mul wFac.toMat.t (pinvT wFac.toMat.t)).t
        (Mat.mul wFac.toMat.t (pinvT wFac.toMat.t))
    ∧ MatEq
        (Mat.mul
          (okOr (FactorModel.forward
            (okOr (FactorModel.fit pinvT FactorModel.init wIn wFac) FactorModel.init)
            wIn.toMat wFac.toMat) (Mat.zero 0 0))
          wFac.toMat.t)
        (Mat.zero 1 1) := by
  have hmp1 : MatEq (Mat.mul (Mat.mul wFac.toMat.t (pinvT wFac.toMat.t)) wFac.toMat.t)
      wFac.toMat.t := by
    refine ⟨rfl, rfl, ?_⟩
    intro i hi j hj
    obtain rfl : i = 0 := Nat.lt_one_iff.mp hi
    obtain rfl : j = 0 := Nat.lt_one_iff.mp hj
    simp [Mat.mul_entry, Tensor.toMat, matTensor, pinvT, wFac, Mat.t, Finset.sum_range_succ]
  have hsym : MatEq (Mat.mul wFac.toMat.t (pinvT wFac.toMat.t)).t
      (Mat.mul wFac.toMat.t (pinvT wFac.toMat.t)) := by
    refine ⟨rfl, rfl, ?_⟩
    intro i hi j hj
    obtain rfl : i = 0 := Nat.lt_one_iff.mp hi
    obtain rfl : j = 0 := Nat.lt_one_iff.mp hj
    simp [Mat.mul_entry, Tensor.toMat, matTensor, pinvT, wFac, Mat.t, Finset.sum_range_succ]
  exact ⟨rfl, rfl, hmp1, hsym,
    residual_orthogonal pinvT FactorModel.init
      (okOr (FactorModel.fit pinvT FactorModel.init wIn wFac) FactorModel.init)
      wIn wFac
      (okOr (FactorModel.forward
        (okOr (FactorModel.fit pinvT FactorModel.init wIn wFac) FactorModel.init)
        wIn.toMat wFac.toMat) (Mat.zero 0 0))
      1 1 1 rfl rfl rfl rfl hmp1 hsym rfl rfl⟩

/-- Claim C10: the beta computed by fit depends only on the two inputs
and not on the instance's prior state.  The source's fit never reads
self, so two calls with the same inputs on instances in arbitrary states
(never fitted, or fitted with other data) are the same computation and
store the same beta. -/
theorem fit_state_independent (pinv : Mat → Mat) (m1 m2 : FactorModel)
    (input factors : Tensor) :
    FactorModel.fit pinv m1 input factors = FactorModel.fit pinv m2 input factors := rfl

end Torchqf
